import Mathlib

/-
  Verification of the mandykoh/rs-markov library core.

  The definitions below are a shallow embedding of the Rust source:
  src/table.rs (frequency table with in-place order maintenance and an
  auxiliary symbol-to-position index), src/sequence.rs (bounded context
  window) and src/model.rs (context-to-table mapping).  Machine integers
  (usize) are modelled as Nat: the counters only ever grow by one per
  call, so wrap-around is unreachable for the properties considered.
  The f64 sampling input is modelled by an exact rational; the cast
  `(x * total as f64) as usize` is modelled as Int.toNat of the floor,
  which agrees with the Rust truncating cast on non-negative values.
  Rust slice indexing that can go out of bounds (a panic) is modelled by
  an Option result (withNext); Vec indexing inside Table is modelled
  with a default entry of frequency zero, which is never hit from a
  reachable table state because the index structure only stores
  in-bounds positions.  The HashMap fields are modelled as association
  lists with HashMap lookup/insert (last-write-wins) semantics.
-/

/-- TableEntry from src/table.rs: one (symbol-or-end, frequency) record. -/
structure TableEntry (σ : Type) where
  frequency : Nat
  symbol : Option σ
deriving DecidableEq, Repr

/-- Table from src/table.rs: total observation counter, the ordered entry
list, and the symbol-to-position index (HashMap modelled as an
association list). -/
structure Table (σ : Type) where
  total_symbols : Nat
  entries : List (TableEntry σ)
  entry_indices : List (Option σ × Nat)
deriving DecidableEq, Repr

/-- Reading self.entries[i]; out-of-range reads yield a frequency-zero
default entry (unreachable from reachable table states, where the Rust
code would otherwise panic). -/
def getEntry {σ : Type} (es : List (TableEntry σ)) (i : Nat) : TableEntry σ :=
  es.getD i ⟨0, none⟩

/-- HashMap::get on entry_indices. -/
def lookupIdx {σ : Type} [DecidableEq σ] (m : List (Option σ × Nat)) (s : Option σ) :
    Option Nat :=
  (m.find? (fun p => decide (p.1 = s))).map Prod.snd

/-- HashMap::insert on entry_indices: overwrite any existing binding. -/
def insertIdx {σ : Type} [DecidableEq σ] (m : List (Option σ × Nat)) (s : Option σ)
    (i : Nat) : List (Option σ × Nat) :=
  (s, i) :: m.filter (fun p => !decide (p.1 = s))

/-- The second loop of Table::sort_entry: for i in a..(a+n) reinsert the
binding entries[i].symbol to i. -/
def updateRange {σ : Type} [DecidableEq σ] (m : List (Option σ × Nat))
    (es : List (TableEntry σ)) (a n : Nat) : List (Option σ × Nat) :=
  (List.range' a n).foldl (fun acc p => insertIdx acc (getEntry es p).symbol p) m

/-- The three-assignment swap of entries[i] and entries[j] in
Table::sort_entry. -/
def swapEntries {σ : Type} (es : List (TableEntry σ)) (i j : Nat) :
    List (TableEntry σ) :=
  (es.set i (getEntry es j)).set j (getEntry es i)

/-- The first loop of Table::sort_entry: starting with j = index, while the
entry at j has strictly greater frequency than its left neighbour, swap
them and decrement j; return the final entry list and the final j. -/
def sortLoop {σ : Type} : List (TableEntry σ) → Nat → List (TableEntry σ) × Nat
  | es, 0 => (es, 0)
  | es, j + 1 =>
    if (getEntry es (j + 1)).frequency ≤ (getEntry es j).frequency then (es, j + 1)
    else sortLoop (swapEntries es j (j + 1)) j

/-- Table::empty. -/
def Table.empty {σ : Type} : Table σ :=
  ⟨0, [], []⟩

/-- Table::sort_entry: bubble the entry at index leftward past strictly
lower-frequency neighbours, then refresh the index for positions j..index. -/
def Table.sort_entry {σ : Type} [DecidableEq σ] (t : Table σ) (index : Nat) :
    Table σ :=
  let r := sortLoop t.entries index
  { t with entries := r.1,
           entry_indices := updateRange t.entry_indices r.1 r.2 (index + 1 - r.2) }

/-- The statement entries[index].frequency += 1 of Table::add: replace the
entry at index i by the same entry with frequency one higher. -/
def bumped {σ : Type} (es : List (TableEntry σ)) (i : Nat) : List (TableEntry σ) :=
  es.set i ⟨(getEntry es i).frequency + 1, (getEntry es i).symbol⟩

/-- Table::add: increment an existing entry and restore order, or append a
fresh entry of frequency 1; then increment total_symbols. -/
def Table.add {σ : Type} [DecidableEq σ] (t : Table σ) (s : Option σ) : Table σ :=
  let t1 :=
    match lookupIdx t.entry_indices s with
    | some i =>
      Table.sort_entry { t with entries := bumped t.entries i } i
    | none =>
      { t with entries := t.entries ++ [TableEntry.mk 1 s],
               entry_indices := insertIdx t.entry_indices s t.entries.length }
  { t1 with total_symbols := t1.total_symbols + 1 }

/-- Table::most_frequent: the symbol-or-end of the first entry (none on an
empty table, and also when the first entry is the end sentinel, exactly as
the Rust Option flattening does). -/
def Table.most_frequent {σ : Type} (t : Table σ) : Option σ :=
  match t.entries with
  | [] => none
  | e :: _ => e.symbol

/-- The scanning loop of Table::sample, returning the entry it stops at:
subtract each frequency from the remaining target until an entry whose
frequency exceeds the remainder is found. -/
def sampleLoopEntry {σ : Type} : List (TableEntry σ) → Nat → Option (TableEntry σ)
  | [], _ => none
  | e :: rest, remaining =>
    if remaining < e.frequency then some e else sampleLoopEntry rest (remaining - e.frequency)

/-- Table::sample: target is the truncating cast of x * total_symbols, then
the scan; the found entry's symbol-or-end is flattened into the result just
as entry.symbol.as_ref() is in the Rust source. -/
def Table.sample {σ : Type} (t : Table σ) (x : ℚ) : Option σ :=
  (sampleLoopEntry t.entries (Int.toNat ⌊x * (t.total_symbols : ℚ)⌋)).bind
    TableEntry.symbol

/-- Observation function: the frequency the table's entry list records for a
symbol-or-end value (0 when absent). -/
def freqIn {σ : Type} [DecidableEq σ] (es : List (TableEntry σ)) (s : Option σ) : Nat :=
  match es.find? (fun e => decide (e.symbol = s)) with
  | some e => e.frequency
  | none => 0

/-- A table obtained from Table::empty by a sequence of Table::add calls. -/
def runAdds {σ : Type} [DecidableEq σ] (adds : List (Option σ)) : Table σ :=
  adds.foldl Table.add Table.empty

/-- Sequence::with_next from src/sequence.rs.  The slice lower bound
len + 1 - order is checked: when it exceeds len (which happens exactly for
order = 0) the Rust slice operation panics, modelled here as none. -/
def withNext {σ : Type} (symbols : List σ) (next : σ) (order : Nat) :
    Option (List σ) :=
  if symbols.length < order then
    some (symbols ++ [next])
  else if symbols.length + 1 - order ≤ symbols.length then
    some (symbols.drop (symbols.length + 1 - order) ++ [next])
  else
    none

/-- Model from src/model.rs: the fixed order and the context-to-table map
(HashMap modelled as an association list). -/
structure Model (σ : Type) where
  order : Nat
  tables_by_seq : List (List σ × Table σ)

/-- Model::empty. -/
def Model.empty {σ : Type} (order : Nat) : Model σ :=
  ⟨order, []⟩

/-- HashMap::get on tables_by_seq. -/
def lookupTable {σ : Type} [DecidableEq σ] (ts : List (List σ × Table σ))
    (seq : List σ) : Option (Table σ) :=
  (ts.find? (fun p => decide (p.1 = seq))).map Prod.snd

/-- Model::add: feed the symbol to the context's table, creating the table
first when the context is new. -/
def Model.add {σ : Type} [DecidableEq σ] (m : Model σ) (seq : List σ)
    (s : Option σ) : Model σ :=
  match lookupTable m.tables_by_seq seq with
  | some _ =>
    { m with tables_by_seq :=
        m.tables_by_seq.map (fun p => if p.1 = seq then (p.1, p.2.add s) else p) }
  | none =>
    { m with tables_by_seq := m.tables_by_seq ++ [(seq, Table.empty.add s)] }

/-- Model::predict: most_frequent of the context's table, none for an
unknown context. -/
def Model.predict {σ : Type} [DecidableEq σ] (m : Model σ) (seq : List σ) :
    Option σ :=
  match lookupTable m.tables_by_seq seq with
  | some t => t.most_frequent
  | none => none

/-- A model obtained from Model::empty by a sequence of Model::add calls. -/
def runModel {σ : Type} [DecidableEq σ] (order : Nat)
    (tr : List (List σ × Option σ)) : Model σ :=
  tr.foldl (fun m p => m.add p.1 p.2) (Model.empty order)

/-- Positional descending sortedness of an entry list. -/
def pairsOK {σ : Type} (es : List (TableEntry σ)) : Prop :=
  ∀ k l, k < l → l < es.length →
    (getEntry es l).frequency ≤ (getEntry es k).frequency

/-- Descending sortedness except possibly at pairs whose right element is
position j (the entry being bubbled leftward). -/
def okExcept {σ : Type} (es : List (TableEntry σ)) (j : Nat) : Prop :=
  ∀ k l, k < l → l < es.length →
    l = j ∨ (getEntry es l).frequency ≤ (getEntry es k).frequency

/-- The complete state invariant of a frequency table: entries sorted by
descending frequency, all frequencies positive, symbols pairwise distinct,
the index maps the symbol at every position to that position and has
exactly the listed symbols as its domain, and total_symbols equals the sum
of the frequencies. -/
structure TableInv {σ : Type} [DecidableEq σ] (t : Table σ) : Prop where
  sorted : pairsOK t.entries
  pos : ∀ e ∈ t.entries, 1 ≤ e.frequency
  nodup : (t.entries.map TableEntry.symbol).Nodup
  idx_pos : ∀ i, i < t.entries.length →
    lookupIdx t.entry_indices (getEntry t.entries i).symbol = some i
  idx_dom : ∀ s, (lookupIdx t.entry_indices s).isSome = true ↔
    s ∈ t.entries.map TableEntry.symbol
  total_eq : t.total_symbols = (t.entries.map TableEntry.frequency).sum

theorem getEntry_cons_succ {σ : Type} (e : TableEntry σ) (es : List (TableEntry σ))
    (k : Nat) : getEntry (e :: es) (k + 1) = getEntry es k := rfl

theorem getEntry_cons_zero {σ : Type} (e : TableEntry σ) (es : List (TableEntry σ)) :
    getEntry (e :: es) 0 = e := rfl

theorem getEntry_nil {σ : Type} (k : Nat) :
    getEntry ([] : List (TableEntry σ)) k = ⟨0, none⟩ := by
  cases k <;> rfl

theorem getEntry_of_len_le {σ : Type} {es : List (TableEntry σ)} {k : Nat}
    (h : es.length ≤ k) : getEntry es k = ⟨0, none⟩ := by
  induction es generalizing k with
  | nil => exact getEntry_nil k
  | cons e es ih =>
    cases k with
    | zero => simp at h
    | succ k =>
      rw [getEntry_cons_succ]
      exact ih (by simpa using h)

theorem getEntry_mem {σ : Type} {es : List (TableEntry σ)} {k : Nat}
    (h : k < es.length) : getEntry es k ∈ es := by
  induction es generalizing k with
  | nil => simp at h
  | cons e es ih =>
    cases k with
    | zero => exact List.mem_cons_self _ _
    | succ k =>
      rw [getEntry_cons_succ]
      exact List.mem_cons_of_mem _ (ih (by simpa using h))

theorem getEntry_set_eq {σ : Type} {es : List (TableEntry σ)} {i : Nat}
    (e : TableEntry σ) (h : i < es.length) : getEntry (es.set i e) i = e := by
  induction es generalizing i with
  | nil => simp at h
  | cons a es ih =>
    cases i with
    | zero => rfl
    | succ i =>
      rw [List.set_cons_succ, getEntry_cons_succ]
      exact ih (by simpa using h)

theorem getEntry_set_ne {σ : Type} {es : List (TableEntry σ)} {i k : Nat}
    (e : TableEntry σ) (h : k ≠ i) : getEntry (es.set i e) k = getEntry es k := by
  induction es generalizing i k with
  | nil => simp
  | cons a es ih =>
    cases i with
    | zero =>
      cases k with
      | zero => exact absurd rfl h
      | succ k => rfl
    | succ i =>
      cases k with
      | zero => rfl
      | succ k =>
        rw [List.set_cons_succ, getEntry_cons_succ, getEntry_cons_succ]
        exact ih (by omega)

theorem getEntry_append_left {σ : Type} {es ys : List (TableEntry σ)} {k : Nat}
    (h : k < es.length) : getEntry (es ++ ys) k = getEntry es k := by
  induction es generalizing k with
  | nil => simp at h
  | cons e es ih =>
    cases k with
    | zero => rfl
    | succ k =>
      rw [List.cons_append, getEntry_cons_succ, getEntry_cons_succ]
      exact ih (by simpa using h)

theorem getEntry_append_right {σ : Type} (es : List (TableEntry σ)) (e : TableEntry σ) :
    getEntry (es ++ [e]) es.length = e := by
  induction es with
  | nil => rfl
  | cons a es ih =>
    rw [List.cons_append, List.length_cons, getEntry_cons_succ]
    exact ih

theorem map_symbol_set {σ : Type} {es : List (TableEntry σ)} {i : Nat}
    {e : TableEntry σ} (h : (getEntry es i).symbol = e.symbol) :
    (es.set i e).map TableEntry.symbol = es.map TableEntry.symbol := by
  induction es generalizing i with
  | nil => simp
  | cons a es ih =>
    cases i with
    | zero =>
      rw [getEntry_cons_zero] at h
      simp [h]
    | succ i =>
      rw [List.set_cons_succ, List.map_cons, List.map_cons]
      rw [getEntry_cons_succ] at h
      rw [ih h]

theorem sum_map_freq_set {σ : Type} {es : List (TableEntry σ)} {i : Nat}
    (e : TableEntry σ) (h : i < es.length) :
    ((es.set i e).map TableEntry.frequency).sum + (getEntry es i).frequency =
      (es.map TableEntry.frequency).sum + e.frequency := by
  induction es generalizing i with
  | nil => simp at h
  | cons a es ih =>
    cases i with
    | zero =>
      rw [getEntry_cons_zero]
      simp
      omega
    | succ i =>
      rw [List.set_cons_succ, getEntry_cons_succ, List.map_cons, List.map_cons,
        List.sum_cons, List.sum_cons]
      have := ih (by simpa using h)
      omega

theorem length_swapEntries {σ : Type} (es : List (TableEntry σ)) (i j : Nat) :
    (swapEntries es i j).length = es.length := by
  simp [swapEntries]

theorem getEntry_swap_left {σ : Type} {es : List (TableEntry σ)} {i : Nat}
    (h : i + 1 < es.length) :
    getEntry (swapEntries es i (i + 1)) i = getEntry es (i + 1) := by
  unfold swapEntries
  rw [getEntry_set_ne _ (by omega), getEntry_set_eq _ (by omega)]

theorem getEntry_swap_right {σ : Type} {es : List (TableEntry σ)} {i : Nat}
    (h : i + 1 < es.length) :
    getEntry (swapEntries es i (i + 1)) (i + 1) = getEntry es i := by
  unfold swapEntries
  rw [getEntry_set_eq _ (by simpa using h)]

theorem getEntry_swap_other {σ : Type} {es : List (TableEntry σ)} {i j k : Nat}
    (h1 : k ≠ i) (h2 : k ≠ j) :
    getEntry (swapEntries es i j) k = getEntry es k := by
  unfold swapEntries
  rw [getEntry_set_ne _ h2, getEntry_set_ne _ h1]

theorem swapEntries_perm {σ : Type} {es : List (TableEntry σ)} {i : Nat}
    (h : i + 1 < es.length) : (swapEntries es i (i + 1)).Perm es := by
  induction es generalizing i with
  | nil => simp at h
  | cons a es ih =>
    cases i with
    | zero =>
      cases es with
      | nil => simp at h
      | cons b es => exact List.Perm.swap a b es
    | succ i =>
      have hh : i + 1 < es.length := by simpa using h
      have : swapEntries (a :: es) (i + 1) (i + 2) = a :: swapEntries es i (i + 1) := by
        unfold swapEntries
        rw [getEntry_cons_succ, getEntry_cons_succ, List.set_cons_succ,
          List.set_cons_succ]
      rw [this]
      exact (ih hh).cons a

theorem one_le_freq_lt_len {σ : Type} {es : List (TableEntry σ)} {k : Nat}
    (h : 1 ≤ (getEntry es k).frequency) : k < es.length := by
  by_contra hc
  push_neg at hc
  rw [getEntry_of_len_le hc] at h
  simp at h

theorem sortLoop_snd_le {σ : Type} (es : List (TableEntry σ)) (j : Nat) :
    (sortLoop es j).2 ≤ j := by
  induction j generalizing es with
  | zero => simp [sortLoop]
  | succ i ih =>
    simp only [sortLoop]
    split
    · exact le_refl _
    · exact le_trans (ih _) (by omega)

theorem sortLoop_perm {σ : Type} (es : List (TableEntry σ)) (j : Nat) :
    (sortLoop es j).1.Perm es := by
  induction j generalizing es with
  | zero => simp [sortLoop]
  | succ i ih =>
    simp only [sortLoop]
    split
    · exact List.Perm.refl es
    · rename_i hguard
      push_neg at hguard
      have hlen : i + 1 < es.length := one_le_freq_lt_len (by omega)
      exact (ih _).trans (swapEntries_perm hlen)

theorem sortLoop_length {σ : Type} (es : List (TableEntry σ)) (j : Nat) :
    (sortLoop es j).1.length = es.length :=
  (sortLoop_perm es j).length_eq

theorem sortLoop_frame {σ : Type} (es : List (TableEntry σ)) (j k : Nat)
    (h : k < (sortLoop es j).2 ∨ j < k) :
    getEntry (sortLoop es j).1 k = getEntry es k := by
  induction j generalizing es with
  | zero => rfl
  | succ i ih =>
    by_cases hguard : (getEntry es (i + 1)).frequency ≤ (getEntry es i).frequency
    · simp only [sortLoop, if_pos hguard]
    · simp only [sortLoop, if_neg hguard] at h ⊢
      push_neg at hguard
      have hlen : i + 1 < es.length := one_le_freq_lt_len (by omega)
      have hsnd := sortLoop_snd_le (swapEntries es i (i + 1)) i
      have hki : k ≠ i := by omega
      have hki1 : k ≠ i + 1 := by omega
      have h' : k < (sortLoop (swapEntries es i (i + 1)) i).2 ∨ i < k := by
        rcases h with h1 | h1
        · exact Or.inl h1
        · exact Or.inr (by omega)
      rw [ih (swapEntries es i (i + 1)) h', getEntry_swap_other hki hki1]

theorem sortLoop_passed {σ : Type} (es : List (TableEntry σ)) (j k : Nat)
    (h1 : (sortLoop es j).2 ≤ k) (h2 : k < j) :
    (getEntry es k).frequency < (getEntry es j).frequency := by
  induction j generalizing es with
  | zero => omega
  | succ i ih =>
    by_cases hguard : (getEntry es (i + 1)).frequency ≤ (getEntry es i).frequency
    · simp only [sortLoop, if_pos hguard] at h1
      have h1' : i + 1 ≤ k := h1
      omega
    · simp only [sortLoop, if_neg hguard] at h1
      push_neg at hguard
      have hlen : i + 1 < es.length := one_le_freq_lt_len (by omega)
      rcases Nat.lt_succ_iff_lt_or_eq.mp h2 with hki | hki
      · have := ih (swapEntries es i (i + 1)) h1 hki
        rw [getEntry_swap_other (by omega) (by omega),
          getEntry_swap_left hlen] at this
        omega
      · subst hki
        exact hguard

theorem sortLoop_stop {σ : Type} (es : List (TableEntry σ)) (j : Nat) :
    (sortLoop es j).2 = 0 ∨
      (getEntry es j).frequency ≤ (getEntry es ((sortLoop es j).2 - 1)).frequency := by
  induction j generalizing es with
  | zero => exact Or.inl rfl
  | succ i ih =>
    by_cases hguard : (getEntry es (i + 1)).frequency ≤ (getEntry es i).frequency
    · right
      simp only [sortLoop, if_pos hguard]
      simpa using hguard
    · simp only [sortLoop, if_neg hguard]
      push_neg at hguard
      have hlen : i + 1 < es.length := one_le_freq_lt_len (by omega)
      have hsnd := sortLoop_snd_le (swapEntries es i (i + 1)) i
      by_cases hz : (sortLoop (swapEntries es i (i + 1)) i).2 = 0
      · exact Or.inl hz
      · rcases ih (swapEntries es i (i + 1)) with hl | hr
        · exact Or.inl hl
        · right
          rw [getEntry_swap_left hlen,
            getEntry_swap_other (by omega) (by omega)] at hr
          exact hr

theorem sortLoop_sorted {σ : Type} (es : List (TableEntry σ)) (j : Nat)
    (h : okExcept es j) : pairsOK (sortLoop es j).1 := by
  induction j generalizing es with
  | zero =>
    intro k l hkl hl
    rcases h k l hkl hl with hli | hok
    · omega
    · exact hok
  | succ i ih =>
    by_cases hguard : (getEntry es (i + 1)).frequency ≤ (getEntry es i).frequency
    · simp only [sortLoop, if_pos hguard]
      intro k l hkl hl
      have hl' : l < es.length := hl
      show (getEntry es l).frequency ≤ (getEntry es k).frequency
      rcases h k l hkl hl' with hli | hok
      · subst hli
        rcases Nat.lt_succ_iff_lt_or_eq.mp hkl with hki | hki
        · have hik : i < es.length := by omega
          rcases h k i hki hik with hii | hoki
          · omega
          · exact le_trans hguard hoki
        · subst hki
          exact hguard
      · exact hok
    · simp only [sortLoop, if_neg hguard]
      push_neg at hguard
      have hlen : i + 1 < es.length := one_le_freq_lt_len (by omega)
      apply ih
      intro k l hkl hl
      have hl' : l < es.length := by
        have := length_swapEntries es i (i + 1)
        omega
      by_cases hli : l = i
      · exact Or.inl hli
      right
      by_cases hli1 : l = i + 1
      · subst hli1
        rw [getEntry_swap_right hlen]
        rcases Nat.lt_succ_iff_lt_or_eq.mp hkl with hki | hki
        · rw [getEntry_swap_other (by omega) (by omega)]
          rcases h k i hki (by omega) with hii | hoki
          · omega
          · exact hoki
        · subst hki
          rw [getEntry_swap_left hlen]
          exact le_of_lt hguard
      · rw [getEntry_swap_other hli hli1]
        rcases Nat.lt_or_ge l i with hlo | hlo
        · rw [getEntry_swap_other (by omega) (by omega)]
          rcases h k l hkl hl' with hc | hc
          · omega
          · exact hc
        · have hlgt : i + 1 < l := by omega
          rcases Nat.lt_or_ge k i with hk | hk
          · rw [getEntry_swap_other (by omega) (by omega)]
            rcases h k l hkl hl' with hc | hc
            · omega
            · exact hc
          · rcases Nat.lt_or_ge k (i + 1) with hk1 | hk1
            · have hki : k = i := by omega
              rw [hki, getEntry_swap_left hlen]
              rcases h (i + 1) l hlgt hl' with hc | hc
              · omega
              · exact hc
            · rcases Nat.lt_or_ge k (i + 2) with hk2 | hk2
              · have hki : k = i + 1 := by omega
                rw [hki, getEntry_swap_right hlen]
                rcases h i l (by omega) hl' with hc | hc
                · omega
                · exact hc
              · rw [getEntry_swap_other (by omega) (by omega)]
                rcases h k l hkl hl' with hc | hc
                · omega
                · exact hc

theorem lookupIdx_insert_self {σ : Type} [DecidableEq σ] (m : List (Option σ × Nat))
    (s : Option σ) (i : Nat) : lookupIdx (insertIdx m s i) s = some i := by
  simp [lookupIdx, insertIdx, List.find?_cons_of_pos]

theorem lookupIdx_cons_ne {σ : Type} [DecidableEq σ] {p : Option σ × Nat}
    {m : List (Option σ × Nat)} {s' : Option σ} (hp : ¬(p.1 = s')) :
    lookupIdx (p :: m) s' = lookupIdx m s' := by
  rw [lookupIdx, lookupIdx, List.find?_cons_of_neg _ (by simpa using hp)]

theorem lookupIdx_cons_eq {σ : Type} [DecidableEq σ] {p : Option σ × Nat}
    {m : List (Option σ × Nat)} {s' : Option σ} (hp : p.1 = s') :
    lookupIdx (p :: m) s' = some p.2 := by
  rw [lookupIdx, List.find?_cons_of_pos _ (by simpa using hp)]
  rfl

theorem lookupIdx_filter_ne {σ : Type} [DecidableEq σ] {m : List (Option σ × Nat)}
    {s s' : Option σ} (h : s' ≠ s) :
    lookupIdx (m.filter (fun p => !decide (p.1 = s))) s' = lookupIdx m s' := by
  induction m with
  | nil => rfl
  | cons p m ih =>
    rw [List.filter_cons]
    by_cases hps : p.1 = s
    · rw [if_neg (by simp [hps]), ih,
        lookupIdx_cons_ne (by rw [hps]; exact fun hh => h hh.symm)]
    · rw [if_pos (by simpa using hps)]
      by_cases hp : p.1 = s'
      · rw [lookupIdx_cons_eq hp, lookupIdx_cons_eq hp]
      · rw [lookupIdx_cons_ne hp, lookupIdx_cons_ne hp, ih]

theorem lookupIdx_insert_ne {σ : Type} [DecidableEq σ] {m : List (Option σ × Nat)}
    {s s' : Option σ} (i : Nat) (h : s' ≠ s) :
    lookupIdx (insertIdx m s i) s' = lookupIdx m s' := by
  rw [insertIdx, lookupIdx,
    List.find?_cons_of_neg _ (by simp; exact fun hh => h hh.symm)]
  exact lookupIdx_filter_ne h

theorem lookupIdx_insert_isSome {σ : Type} [DecidableEq σ] (m : List (Option σ × Nat))
    (s s' : Option σ) (i : Nat) :
    (lookupIdx (insertIdx m s i) s').isSome = true ↔
      s' = s ∨ (lookupIdx m s').isSome = true := by
  by_cases h : s' = s
  · subst h
    simp [lookupIdx_insert_self]
  · rw [lookupIdx_insert_ne i h]
    simp [h]

theorem updateRange_zero {σ : Type} [DecidableEq σ] (m : List (Option σ × Nat))
    (es : List (TableEntry σ)) (a : Nat) : updateRange m es a 0 = m := rfl

theorem updateRange_succ {σ : Type} [DecidableEq σ] (m : List (Option σ × Nat))
    (es : List (TableEntry σ)) (a n : Nat) :
    updateRange m es a (n + 1) =
      updateRange (insertIdx m (getEntry es a).symbol a) es (a + 1) n := by
  rw [updateRange, List.range'_succ, List.foldl_cons]
  rfl

theorem lookupIdx_updateRange_notin {σ : Type} [DecidableEq σ]
    {m : List (Option σ × Nat)} {es : List (TableEntry σ)} {a n : Nat} {s : Option σ}
    (h : ∀ p, a ≤ p → p < a + n → (getEntry es p).symbol ≠ s) :
    lookupIdx (updateRange m es a n) s = lookupIdx m s := by
  induction n generalizing a m with
  | zero => rfl
  | succ n ih =>
    rw [updateRange_succ]
    rw [ih (fun p hp1 hp2 => h p (by omega) (by omega))]
    exact lookupIdx_insert_ne a fun hh => h a (le_refl a) (by omega) hh.symm

theorem lookupIdx_updateRange_mem {σ : Type} [DecidableEq σ]
    {m : List (Option σ × Nat)} {es : List (TableEntry σ)} {a n q : Nat}
    (hq1 : a ≤ q) (hq2 : q < a + n)
    (huniq : ∀ p, a ≤ p → p < a + n →
      (getEntry es p).symbol = (getEntry es q).symbol → p = q) :
    lookupIdx (updateRange m es a n) (getEntry es q).symbol = some q := by
  induction n generalizing a m with
  | zero => omega
  | succ n ih =>
    rw [updateRange_succ]
    by_cases hqa : q = a
    · rw [lookupIdx_updateRange_notin (fun p hp1 hp2 hps => by
        have := huniq p (by omega) (by omega) hps
        omega)]
      rw [hqa]
      exact lookupIdx_insert_self m (getEntry es a).symbol a
    · exact ih (by omega) (by omega)
        (fun p hp1 hp2 hps => huniq p (by omega) (by omega) hps)

theorem lookupIdx_updateRange_isSome {σ : Type} [DecidableEq σ]
    (m : List (Option σ × Nat)) (es : List (TableEntry σ)) (a n : Nat) (s : Option σ) :
    (lookupIdx (updateRange m es a n) s).isSome = true ↔
      (∃ q, a ≤ q ∧ q < a + n ∧ (getEntry es q).symbol = s) ∨
        (lookupIdx m s).isSome = true := by
  induction n generalizing a m with
  | zero =>
    rw [updateRange_zero]
    constructor
    · exact fun h => Or.inr h
    · rintro (⟨q, hq1, hq2, _⟩ | h)
      · omega
      · exact h
  | succ n ih =>
    rw [updateRange_succ, ih, lookupIdx_insert_isSome]
    constructor
    · rintro (⟨q, hq1, hq2, hq3⟩ | hs | hm)
      · exact Or.inl ⟨q, by omega, by omega, hq3⟩
      · exact Or.inl ⟨a, le_refl a, by omega, hs.symm⟩
      · exact Or.inr hm
    · rintro (⟨q, hq1, hq2, hq3⟩ | hm)
      · by_cases hqa : q = a
        · exact Or.inr (Or.inl (by rw [← hq3, hqa]))
        · exact Or.inl ⟨q, by omega, by omega, hq3⟩
      · exact Or.inr (Or.inr hm)

theorem length_bumped {σ : Type} (es : List (TableEntry σ)) (i : Nat) :
    (bumped es i).length = es.length := by
  simp [bumped]

theorem getEntry_bumped_eq {σ : Type} {es : List (TableEntry σ)} {i : Nat}
    (h : i < es.length) :
    getEntry (bumped es i) i =
      ⟨(getEntry es i).frequency + 1, (getEntry es i).symbol⟩ :=
  getEntry_set_eq _ h

theorem getEntry_bumped_ne {σ : Type} {es : List (TableEntry σ)} {i k : Nat}
    (h : k ≠ i) : getEntry (bumped es i) k = getEntry es k :=
  getEntry_set_ne _ h

theorem map_symbol_bumped {σ : Type} (es : List (TableEntry σ)) (i : Nat) :
    (bumped es i).map TableEntry.symbol = es.map TableEntry.symbol :=
  map_symbol_set rfl

theorem sum_bumped {σ : Type} {es : List (TableEntry σ)} {i : Nat}
    (h : i < es.length) :
    ((bumped es i).map TableEntry.frequency).sum =
      (es.map TableEntry.frequency).sum + 1 := by
  have h1 := sum_map_freq_set
    (⟨(getEntry es i).frequency + 1, (getEntry es i).symbol⟩ : TableEntry σ) h
  have h2 : (⟨(getEntry es i).frequency + 1, (getEntry es i).symbol⟩ :
      TableEntry σ).frequency = (getEntry es i).frequency + 1 := rfl
  rw [h2] at h1
  rw [bumped]
  omega

theorem mem_map_symbol_of_lt {σ : Type} {es : List (TableEntry σ)} {i : Nat}
    (h : i < es.length) : (getEntry es i).symbol ∈ es.map TableEntry.symbol :=
  List.mem_map_of_mem _ (getEntry_mem h)

theorem nodup_getEntry_inj {σ : Type} {es : List (TableEntry σ)}
    (hn : (es.map TableEntry.symbol).Nodup) {a b : Nat}
    (ha : a < es.length) (hb : b < es.length)
    (hab : (getEntry es a).symbol = (getEntry es b).symbol) : a = b := by
  induction es generalizing a b with
  | nil => simp at ha
  | cons e es ih =>
    rw [List.map_cons, List.nodup_cons] at hn
    cases a with
    | zero =>
      cases b with
      | zero => rfl
      | succ b =>
        rw [getEntry_cons_zero] at hab
        rw [getEntry_cons_succ] at hab
        exact absurd (hab ▸ mem_map_symbol_of_lt (by simpa using hb)) hn.1
    | succ a =>
      cases b with
      | zero =>
        rw [getEntry_cons_zero] at hab
        rw [getEntry_cons_succ] at hab
        exact absurd (hab ▸ mem_map_symbol_of_lt (by simpa using ha)) hn.1
      | succ b =>
        rw [getEntry_cons_succ, getEntry_cons_succ] at hab
        have := ih hn.2 (by simpa using ha) (by simpa using hb) hab
        omega

theorem exists_pos_of_mem_symbol {σ : Type} {es : List (TableEntry σ)} {s : Option σ}
    (h : s ∈ es.map TableEntry.symbol) :
    ∃ k, k < es.length ∧ (getEntry es k).symbol = s := by
  induction es with
  | nil => simp at h
  | cons e es ih =>
    rw [List.map_cons, List.mem_cons] at h
    rcases h with h | h
    · exact ⟨0, by simp, h.symm⟩
    · rcases ih h with ⟨k, hk, hks⟩
      exact ⟨k + 1, by simpa using hk, by rwa [getEntry_cons_succ]⟩

theorem Table.add_none_eq {σ : Type} [DecidableEq σ] (t : Table σ) (s : Option σ)
    (h : lookupIdx t.entry_indices s = none) :
    t.add s = ⟨t.total_symbols + 1, t.entries ++ [TableEntry.mk 1 s],
      insertIdx t.entry_indices s t.entries.length⟩ := by
  unfold Table.add
  rw [h]

theorem Table.add_some_eq {σ : Type} [DecidableEq σ] (t : Table σ) (s : Option σ)
    (i : Nat) (h : lookupIdx t.entry_indices s = some i) :
    t.add s = ⟨t.total_symbols + 1,
      (sortLoop (bumped t.entries i) i).1,
      updateRange t.entry_indices (sortLoop (bumped t.entries i) i).1
        (sortLoop (bumped t.entries i) i).2
        (i + 1 - (sortLoop (bumped t.entries i) i).2)⟩ := by
  unfold Table.add
  rw [h]
  rfl

theorem tableInv_empty {σ : Type} [DecidableEq σ] : TableInv (Table.empty : Table σ) := by
  constructor
  · intro k l hkl hl
    simp [Table.empty] at hl
  · intro e he
    simp [Table.empty] at he
  · simp [Table.empty]
  · intro i hi
    simp [Table.empty] at hi
  · intro s
    simp [Table.empty, lookupIdx]
  · rfl

theorem tableInv_add {σ : Type} [DecidableEq σ] {t : Table σ} (ht : TableInv t)
    (s : Option σ) : TableInv (t.add s) := by
  cases hlook : lookupIdx t.entry_indices s with
  | none =>
    rw [Table.add_none_eq t s hlook]
    have hnotmem : s ∉ t.entries.map TableEntry.symbol := by
      intro hmem
      have := (ht.idx_dom s).mpr hmem
      rw [hlook] at this
      simp at this
    constructor
    · intro k l hkl hl
      have hllen : l < t.entries.length + 1 := by
        simpa using hl
      rcases Nat.lt_or_ge l t.entries.length with hlt | hge
      · rw [getEntry_append_left hlt, getEntry_append_left (by omega)]
        exact ht.sorted k l hkl hlt
      · have hleq : l = t.entries.length := by omega
        rw [hleq, getEntry_append_right, getEntry_append_left (by omega)]
        exact ht.pos _ (getEntry_mem (by omega))
    · intro e he
      rw [List.mem_append] at he
      rcases he with he | he
      · exact ht.pos e he
      · simp at he
        rw [he]
    · rw [List.map_append, List.map_cons, List.map_nil]
      rw [List.nodup_append]
      exact ⟨ht.nodup, List.nodup_singleton s, by simpa using hnotmem⟩
    · intro p hp
      have hplen : p < t.entries.length + 1 := by
        simpa using hp
      rcases Nat.lt_or_ge p t.entries.length with hlt | hge
      · rw [getEntry_append_left hlt]
        have hne : (getEntry t.entries p).symbol ≠ s :=
          fun hh => hnotmem (hh ▸ mem_map_symbol_of_lt hlt)
        rw [lookupIdx_insert_ne _ hne]
        exact ht.idx_pos p hlt
      · have hpe : p = t.entries.length := by omega
        rw [hpe, getEntry_append_right]
        exact lookupIdx_insert_self _ _ _
    · intro s'
      rw [lookupIdx_insert_isSome, ht.idx_dom s', List.map_append]
      simp [or_comm]
    · show t.total_symbols + 1 =
        ((t.entries ++ [TableEntry.mk 1 s]).map TableEntry.frequency).sum
      rw [List.map_append, List.sum_append, ht.total_eq]
      simp
  | some i =>
    rw [Table.add_some_eq t s i hlook]
    have hsome : (lookupIdx t.entry_indices s).isSome = true := by
      rw [hlook]
      rfl
    have hmem := (ht.idx_dom s).mp hsome
    obtain ⟨hilen, hisym⟩ :
        i < t.entries.length ∧ (getEntry t.entries i).symbol = s := by
      rcases exists_pos_of_mem_symbol hmem with ⟨k, hk, hks⟩
      have hpk := ht.idx_pos k hk
      rw [hks, hlook] at hpk
      have hik : i = k := by simpa using hpk
      refine ⟨by omega, ?_⟩
      rw [hik]
      exact hks
    have hblen : (bumped t.entries i).length = t.entries.length :=
      length_bumped t.entries i
    have hperm : (sortLoop (bumped t.entries i) i).1.Perm (bumped t.entries i) :=
      sortLoop_perm (bumped t.entries i) i
    have hrlen : (sortLoop (bumped t.entries i) i).1.length = t.entries.length := by
      rw [hperm.length_eq, hblen]
    have hsndle : (sortLoop (bumped t.entries i) i).2 ≤ i :=
      sortLoop_snd_le (bumped t.entries i) i
    have hpermsym : ((sortLoop (bumped t.entries i) i).1.map TableEntry.symbol).Perm
        (t.entries.map TableEntry.symbol) := by
      have := hperm.map TableEntry.symbol
      rwa [map_symbol_bumped] at this
    have hnodup2 : ((sortLoop (bumped t.entries i) i).1.map TableEntry.symbol).Nodup :=
      hpermsym.nodup_iff.mpr ht.nodup
    constructor
    · apply sortLoop_sorted
      intro k l hkl hl
      rw [length_bumped] at hl
      by_cases hli : l = i
      · exact Or.inl hli
      right
      rw [getEntry_bumped_ne hli]
      by_cases hki : k = i
      · rw [hki, getEntry_bumped_eq hilen]
        have := ht.sorted i l (by omega) hl
        show (getEntry t.entries l).frequency ≤ (getEntry t.entries i).frequency + 1
        omega
      · rw [getEntry_bumped_ne hki]
        exact ht.sorted k l hkl hl
    · intro e he
      have he2 := hperm.mem_iff.mp he
      rcases List.mem_or_eq_of_mem_set he2 with he3 | he3
      · exact ht.pos e he3
      · rw [he3]
        exact Nat.le_add_left 1 _
    · exact hnodup2
    · intro p hp
      rw [hrlen] at hp
      by_cases hrange : (sortLoop (bumped t.entries i) i).2 ≤ p ∧ p ≤ i
      · apply lookupIdx_updateRange_mem hrange.1 (by omega)
        intro pp hpp1 hpp2 hps
        exact nodup_getEntry_inj hnodup2 (by omega) (by omega) hps
      · have houtside : p < (sortLoop (bumped t.entries i) i).2 ∨ i < p := by
          rcases Nat.lt_or_ge p (sortLoop (bumped t.entries i) i).2 with hc | hc
          · exact Or.inl hc
          · right
            by_contra hc2
            exact hrange ⟨hc, by omega⟩
        rw [lookupIdx_updateRange_notin (fun pp hpp1 hpp2 hps => by
          have := nodup_getEntry_inj hnodup2 (by omega) (by omega) hps
          omega)]
        rw [sortLoop_frame (bumped t.entries i) i p houtside,
          getEntry_bumped_ne (by omega)]
        exact ht.idx_pos p hp
    · intro s'
      rw [lookupIdx_updateRange_isSome, ht.idx_dom s']
      constructor
      · rintro (⟨q, hq1, hq2, hq3⟩ | hmem')
        · exact hq3 ▸ mem_map_symbol_of_lt
            (by show q < (sortLoop (bumped t.entries i) i).1.length; omega)
        · exact hpermsym.mem_iff.mpr hmem'
      · intro hmem'
        exact Or.inr (hpermsym.mem_iff.mp hmem')
    · show t.total_symbols + 1 =
        ((sortLoop (bumped t.entries i) i).1.map TableEntry.frequency).sum
      rw [(hperm.map TableEntry.frequency).sum_eq, sum_bumped hilen, ht.total_eq]

theorem tableInv_runAdds {σ : Type} [DecidableEq σ] (adds : List (Option σ)) :
    TableInv (runAdds adds) := by
  rw [runAdds]
  have h : ∀ (t : Table σ), TableInv t → TableInv (adds.foldl Table.add t) := by
    induction adds with
    | nil => exact fun t ht => ht
    | cons a adds ih =>
      intro t ht
      exact ih _ (tableInv_add ht a)
  exact h Table.empty tableInv_empty

theorem sampleLoopEntry_isSome {σ : Type} {es : List (TableEntry σ)} {target : Nat}
    (h : target < (es.map TableEntry.frequency).sum) :
    (sampleLoopEntry es target).isSome = true := by
  induction es generalizing target with
  | nil => simp at h
  | cons e rest ih =>
    simp only [sampleLoopEntry]
    split
    · rfl
    · rename_i hge
      push_neg at hge
      apply ih
      rw [List.map_cons, List.sum_cons] at h
      omega

theorem sampleLoopEntry_zero_cons {σ : Type} {e : TableEntry σ}
    (rest : List (TableEntry σ)) (h : 0 < e.frequency) :
    sampleLoopEntry (e :: rest) 0 = some e := by
  simp only [sampleLoopEntry]
  rw [if_pos h]

theorem total_zero_entries_nil {σ : Type} [DecidableEq σ] {t : Table σ}
    (ht : TableInv t) (h : t.total_symbols = 0) : t.entries = [] := by
  cases hes : t.entries with
  | nil => rfl
  | cons e rest =>
    exfalso
    have h1 := ht.pos e (by rw [hes]; exact List.mem_cons_self _ _)
    have h2 := ht.total_eq
    rw [hes, List.map_cons, List.sum_cons] at h2
    omega

theorem target_lt_total {x : ℚ} (hx0 : 0 ≤ x) (hx1 : x < 1) {total : Nat}
    (ht : total ≠ 0) : Int.toNat ⌊x * (total : ℚ)⌋ < total := by
  have htpos : (0 : ℚ) < total := by exact_mod_cast Nat.pos_of_ne_zero ht
  have h1 : x * (total : ℚ) < (total : ℚ) := by
    calc x * (total : ℚ) < 1 * total := mul_lt_mul_of_pos_right hx1 htpos
    _ = total := one_mul _
  have h2 : ⌊x * (total : ℚ)⌋ < (total : ℤ) := by
    rw [Int.floor_lt]
    exact_mod_cast h1
  rw [Int.toNat_lt' ht]
  exact h2

theorem find?_eq_head?_filter {α : Type} (l : List α) (p : α → Bool) :
    l.find? p = (l.filter p).head? := by
  induction l with
  | nil => rfl
  | cons a l ih =>
    rw [List.filter_cons]
    by_cases h : p a
    · rw [List.find?_cons_of_pos _ h, if_pos h]
      rfl
    · rw [List.find?_cons_of_neg _ h, if_neg h, ih]

theorem filter_symbol_length_le_one {σ : Type} [DecidableEq σ]
    {es : List (TableEntry σ)} (hn : (es.map TableEntry.symbol).Nodup)
    (s' : Option σ) :
    (es.filter (fun e => decide (e.symbol = s'))).length ≤ 1 := by
  induction es with
  | nil => simp
  | cons a es ih =>
    rw [List.map_cons, List.nodup_cons] at hn
    rw [List.filter_cons]
    by_cases h : a.symbol = s'
    · rw [if_pos (by simpa using h)]
      have hnil : es.filter (fun e => decide (e.symbol = s')) = [] := by
        rw [List.filter_eq_nil_iff]
        intro e he hpe
        apply hn.1
        have heq : a.symbol = e.symbol := by
          rw [h]
          exact (by simpa using hpe : e.symbol = s').symm
        rw [heq]
        exact List.mem_map_of_mem _ he
      rw [hnil]
      simp
    · rw [if_neg (by simpa using h)]
      exact ih hn.2

theorem freqIn_perm {σ : Type} [DecidableEq σ] {es es' : List (TableEntry σ)}
    (hperm : es.Perm es') (hn : (es.map TableEntry.symbol).Nodup) (s' : Option σ) :
    freqIn es s' = freqIn es' s' := by
  rw [freqIn, freqIn, find?_eq_head?_filter, find?_eq_head?_filter]
  have hpf := hperm.filter (fun e => decide (e.symbol = s'))
  have hlen := filter_symbol_length_le_one hn s'
  cases hfe : es.filter (fun e => decide (e.symbol = s')) with
  | nil =>
    rw [hfe] at hpf
    rw [(hpf.symm.eq_nil : es'.filter (fun e => decide (e.symbol = s')) = [])]
  | cons a rest =>
    rw [hfe] at hpf hlen
    have hrest : rest = [] := by
      rw [List.length_cons] at hlen
      exact List.eq_nil_of_length_eq_zero (by omega)
    subst hrest
    have heq : es'.filter (fun e => decide (e.symbol = s')) = [a] :=
      List.perm_singleton.mp hpf.symm
    rw [heq]

theorem freqIn_set_ne {σ : Type} [DecidableEq σ] {es : List (TableEntry σ)}
    {i : Nat} {e : TableEntry σ} {s' : Option σ}
    (hold : ¬((getEntry es i).symbol = s')) (hnew : ¬(e.symbol = s')) :
    freqIn (es.set i e) s' = freqIn es s' := by
  induction es generalizing i with
  | nil => rfl
  | cons a es ih =>
    cases i with
    | zero =>
      rw [getEntry_cons_zero] at hold
      rw [List.set_cons_zero, freqIn, freqIn,
        List.find?_cons_of_neg _ (by simpa using hnew),
        List.find?_cons_of_neg _ (by simpa using hold)]
    | succ i =>
      rw [getEntry_cons_succ] at hold
      rw [List.set_cons_succ]
      by_cases h : a.symbol = s'
      · rw [freqIn, freqIn, List.find?_cons_of_pos _ (by simpa using h),
          List.find?_cons_of_pos _ (by simpa using h)]
      · rw [freqIn, freqIn, List.find?_cons_of_neg _ (by simpa using h),
          List.find?_cons_of_neg _ (by simpa using h)]
        exact ih hold

theorem freqIn_append_ne {σ : Type} [DecidableEq σ] (es : List (TableEntry σ))
    {e : TableEntry σ} {s' : Option σ} (h : ¬(e.symbol = s')) :
    freqIn (es ++ [e]) s' = freqIn es s' := by
  rw [freqIn, freqIn, List.find?_append]
  have h2 : List.find? (fun x => decide (x.symbol = s')) [e] = none := by
    rw [List.find?_cons_of_neg _ (by simpa using h)]
    rfl
  rw [h2, Option.or_none]

theorem freqIn_append_eq {σ : Type} [DecidableEq σ] (es : List (TableEntry σ))
    {e : TableEntry σ} {s' : Option σ} (hnot : s' ∉ es.map TableEntry.symbol)
    (h : e.symbol = s') : freqIn (es ++ [e]) s' = e.frequency := by
  rw [freqIn, List.find?_append]
  have h1 : List.find? (fun x => decide (x.symbol = s')) es = none := by
    rw [List.find?_eq_none]
    intro x hx hpx
    exact hnot ((by simpa using hpx : x.symbol = s') ▸ List.mem_map_of_mem _ hx)
  have h2 : List.find? (fun x => decide (x.symbol = s')) [e] = some e := by
    rw [List.find?_cons_of_pos _ (by simpa using h)]
  rw [h1, h2]
  rfl

theorem lookupTable_cons_eq {σ : Type} [DecidableEq σ] {p : List σ × Table σ}
    {ts : List (List σ × Table σ)} {seq : List σ} (hp : p.1 = seq) :
    lookupTable (p :: ts) seq = some p.2 := by
  rw [lookupTable, List.find?_cons_of_pos _ (by simpa using hp)]
  rfl

theorem lookupTable_cons_ne {σ : Type} [DecidableEq σ] {p : List σ × Table σ}
    {ts : List (List σ × Table σ)} {seq : List σ} (hp : ¬(p.1 = seq)) :
    lookupTable (p :: ts) seq = lookupTable ts seq := by
  rw [lookupTable, lookupTable, List.find?_cons_of_neg _ (by simpa using hp)]

theorem lookupTable_map_update {σ : Type} [DecidableEq σ]
    (ts : List (List σ × Table σ)) (q ctx : List σ) (f : Table σ → Table σ)
    (h : q ≠ ctx) :
    lookupTable (ts.map (fun p => if p.1 = q then (p.1, f p.2) else p)) ctx =
      lookupTable ts ctx := by
  induction ts with
  | nil => rfl
  | cons p ts ih =>
    rw [List.map_cons]
    by_cases hp : p.1 = ctx
    · have hpq : ¬(p.1 = q) := by rw [hp]; exact fun hh => h hh.symm
      rw [if_neg hpq, lookupTable_cons_eq hp, lookupTable_cons_eq hp]
    · by_cases hpq : p.1 = q
      · rw [if_pos hpq, lookupTable_cons_ne (by simpa using hp),
          lookupTable_cons_ne hp]
        exact ih
      · rw [if_neg hpq, lookupTable_cons_ne hp, lookupTable_cons_ne hp]
        exact ih

theorem Model.add_table_none {σ : Type} [DecidableEq σ] (m : Model σ)
    (seq : List σ) (v : Option σ) (h : lookupTable m.tables_by_seq seq = none) :
    m.add seq v = ⟨m.order, m.tables_by_seq ++ [(seq, Table.empty.add v)]⟩ := by
  unfold Model.add
  rw [h]

theorem Model.add_table_some {σ : Type} [DecidableEq σ] (m : Model σ)
    (seq : List σ) (v : Option σ) (tb : Table σ)
    (h : lookupTable m.tables_by_seq seq = some tb) :
    m.add seq v = ⟨m.order, m.tables_by_seq.map
      (fun p => if p.1 = seq then (p.1, p.2.add v) else p)⟩ := by
  unfold Model.add
  rw [h]

theorem lookupTable_add_ne {σ : Type} [DecidableEq σ] (m : Model σ)
    (q ctx : List σ) (v : Option σ) (h : q ≠ ctx) :
    lookupTable (m.add q v).tables_by_seq ctx = lookupTable m.tables_by_seq ctx := by
  cases hq : lookupTable m.tables_by_seq q with
  | some tb =>
    rw [Model.add_table_some m q v tb hq]
    exact lookupTable_map_update m.tables_by_seq q ctx (fun t => t.add v) h
  | none =>
    rw [Model.add_table_none m q v hq, lookupTable, List.find?_append]
    have h2 : List.find? (fun p => decide (p.1 = ctx)) [(q, Table.empty.add v)] =
        none := by
      rw [List.find?_cons_of_neg _ (by simpa using h)]
      rfl
    rw [h2, Option.or_none]
    rfl

theorem lookupTable_append_self {σ : Type} [DecidableEq σ]
    {ts : List (List σ × Table σ)} {ctx : List σ} (tb : Table σ)
    (h : lookupTable ts ctx = none) :
    lookupTable (ts ++ [(ctx, tb)]) ctx = some tb := by
  have hf : List.find? (fun p => decide (p.1 = ctx)) ts = none := by
    cases hfind : List.find? (fun p => decide (p.1 = ctx)) ts with
    | none => rfl
    | some p =>
      rw [lookupTable, hfind] at h
      simp at h
  rw [lookupTable, List.find?_append, hf]
  rw [List.find?_cons_of_pos _ (by simp)]
  rfl

theorem lookupTable_runModel_notin {σ : Type} [DecidableEq σ] (order : Nat)
    (tr : List (List σ × Option σ)) (ctx : List σ) (h : ctx ∉ tr.map Prod.fst) :
    lookupTable (runModel order tr).tables_by_seq ctx = none := by
  rw [runModel]
  have gen : ∀ (tr2 : List (List σ × Option σ)) (m : Model σ),
      ctx ∉ tr2.map Prod.fst → lookupTable m.tables_by_seq ctx = none →
      lookupTable (tr2.foldl (fun m p => m.add p.1 p.2) m).tables_by_seq ctx =
        none := by
    intro tr2
    induction tr2 with
    | nil => exact fun m _ hm => hm
    | cons p tr2 ih =>
      intro m hmem hm
      rw [List.map_cons, List.mem_cons] at hmem
      push_neg at hmem
      rw [List.foldl_cons]
      apply ih _ hmem.2
      rw [lookupTable_add_ne m p.1 ctx p.2 (fun hh => hmem.1 hh.symm)]
      exact hm
  exact gen tr (Model.empty order) h rfl

/-- C1: for every sequence of add calls starting from an empty frequency
table, the entry list is sorted in descending order of frequency after every
call: each entry's frequency is at least the frequency of the entry after
it. -/
theorem claim_C1_sorted_after_adds {σ : Type} [DecidableEq σ]
    (adds : List (Option σ)) (k : Nat)
    (hk : k + 1 < (runAdds adds).entries.length) :
    (getEntry (runAdds adds).entries (k + 1)).frequency ≤
      (getEntry (runAdds adds).entries k).frequency :=
  (tableInv_runAdds adds).sorted k (k + 1) (Nat.lt_succ_self k) hk

/-- Witness for C1 at the call sequence add 0, add 0, add 1 and adjacent
positions 0 and 1. -/
theorem claim_C1_witness :
    0 + 1 < (runAdds [some 0, some 0, some (1 : Nat)]).entries.length ∧
    (getEntry (runAdds [some 0, some 0, some (1 : Nat)]).entries (0 + 1)).frequency ≤
      (getEntry (runAdds [some 0, some 0, some (1 : Nat)]).entries 0).frequency :=
  ⟨by decide, claim_C1_sorted_after_adds [some 0, some 0, some 1] 0 (by decide)⟩

/-- C2: the bubbling loop of sort_entry moves the incremented entry only
past entries with strictly lower frequency (every position passed over held
a strictly smaller frequency) and stops as soon as the left neighbour has
equal or higher frequency, so among equal-frequency entries the earlier one
stays ahead; concretely add a, add b, add b, add a leaves b most
frequent. -/
theorem claim_C2_stability {σ : Type} (es : List (TableEntry σ)) (index k : Nat) :
    ((sortLoop es index).2 ≤ k → k < index →
      (getEntry es k).frequency < (getEntry es index).frequency) ∧
    ((sortLoop es index).2 = 0 ∨
      (getEntry es index).frequency ≤
        (getEntry es ((sortLoop es index).2 - 1)).frequency) ∧
    (runAdds [some 0, some 1, some 1, some (0 : Nat)]).most_frequent = some 1 :=
  ⟨fun h1 h2 => sortLoop_passed es index k h1 h2, sortLoop_stop es index, by decide⟩

/-- Witness for C2: bubbling the entry of frequency 2 at position 1 over the
entry of frequency 1 at position 0. -/
theorem claim_C2_witness :
    (getEntry [TableEntry.mk 1 (some (0 : Nat)), TableEntry.mk 2 (some 1)] 0).frequency <
      (getEntry [TableEntry.mk 1 (some (0 : Nat)), TableEntry.mk 2 (some 1)] 1).frequency :=
  (claim_C2_stability [TableEntry.mk 1 (some 0), TableEntry.mk 2 (some 1)] 1 0).1
    (by decide) (by decide)

/-- C3: for every reachable table state and x in the unit interval, sample x
computes the target as the floor of x times the running total, walks the
entries in order subtracting frequencies until one exceeds the remainder,
and returns that entry's symbol-or-end; sample is a pure function of x and
the state, and sample 0 on a non-empty table returns the symbol-or-end of
the first, highest-ranked entry. -/
theorem claim_C3_sample_spec {σ : Type} [DecidableEq σ] (adds : List (Option σ))
    (x : ℚ) (hx0 : 0 ≤ x) (hx1 : x < 1) :
    (runAdds adds).sample x =
      (sampleLoopEntry (runAdds adds).entries
        (Int.toNat ⌊x * ((runAdds adds).total_symbols : ℚ)⌋)).bind
        TableEntry.symbol ∧
    ((runAdds adds).entries ≠ [] →
      (runAdds adds).sample 0 = (getEntry (runAdds adds).entries 0).symbol) := by
  refine ⟨rfl, fun hne => ?_⟩
  obtain ⟨e, rest, hes⟩ := List.exists_cons_of_ne_nil hne
  have hpos : 0 < e.frequency :=
    (tableInv_runAdds adds).pos e (by rw [hes]; exact List.mem_cons_self _ _)
  rw [Table.sample, zero_mul, Int.floor_zero, Int.toNat_zero, hes,
    sampleLoopEntry_zero_cons rest hpos]
  rfl

/-- Witness for C3 at one add of symbol 5 and x equal to 0. -/
theorem claim_C3_witness :
    (0 : ℚ) ≤ 0 ∧ (0 : ℚ) < 1 ∧ (runAdds [some (5 : Nat)]).entries ≠ [] ∧
    (runAdds [some (5 : Nat)]).sample 0 =
      (getEntry (runAdds [some (5 : Nat)]).entries 0).symbol :=
  ⟨le_rfl, by norm_num, by decide,
    (claim_C3_sample_spec [some 5] 0 le_rfl (by norm_num)).2 (by decide)⟩

/-- C4: for every sequence of add calls from the empty table, the sum of
the entry frequencies equals the number of calls, this sum equals the
running total counter, and every single add increments the total counter by
exactly one in both branches. -/
theorem claim_C4_total_count {σ : Type} [DecidableEq σ] (adds : List (Option σ)) :
    ((runAdds adds).entries.map TableEntry.frequency).sum = adds.length ∧
    (runAdds adds).total_symbols = adds.length ∧
    ∀ (t : Table σ) (s : Option σ),
      (t.add s).total_symbols = t.total_symbols + 1 := by
  have hstep : ∀ (t : Table σ) (s : Option σ),
      (t.add s).total_symbols = t.total_symbols + 1 := by
    intro t s
    cases hlook : lookupIdx t.entry_indices s with
    | none => rw [Table.add_none_eq t s hlook]
    | some i => rw [Table.add_some_eq t s i hlook]
  have htot : (runAdds adds).total_symbols = adds.length := by
    rw [runAdds]
    have gen : ∀ t : Table σ,
        (adds.foldl Table.add t).total_symbols = t.total_symbols + adds.length := by
      induction adds with
      | nil => intro t; simp
      | cons a adds ih =>
        intro t
        rw [List.foldl_cons, ih (t.add a), hstep, List.length_cons]
        omega
    rw [gen Table.empty]
    simp [Table.empty]
  refine ⟨?_, htot, hstep⟩
  rw [← (tableInv_runAdds adds).total_eq]
  exact htot

/-- C5: with a positive order, with_next keeps the whole window when it is
shorter than the order and otherwise keeps only its last order minus one
symbols, appends the new symbol, and the result length is the minimum of
length plus one and order; with_next builds a fresh window, never mutating
the old one. -/
theorem claim_C5_with_next {σ : Type} (current : List σ) (s : σ) (order : Nat)
    (h : 0 < order) :
    withNext current s order =
      some ((if current.length < order then current
             else current.drop (current.length - (order - 1))) ++ [s]) ∧
    ((if current.length < order then current
      else current.drop (current.length - (order - 1))) ++ [s]).length =
      min (current.length + 1) order := by
  constructor
  · rw [withNext]
    by_cases hlt : current.length < order
    · rw [if_pos hlt, if_pos hlt]
    · rw [if_neg hlt, if_pos (by omega), if_neg hlt]
      have harith : current.length + 1 - order = current.length - (order - 1) := by
        omega
      rw [harith]
  · rw [List.length_append]
    by_cases hlt : current.length < order
    · rw [if_pos hlt]
      simp only [List.length_singleton]
      omega
    · rw [if_neg hlt, List.length_drop]
      simp only [List.length_singleton]
      omega

/-- Witness for C5: order 1 on the one-element window containing 0 with new
symbol 1 gives the window containing only 1. -/
theorem claim_C5_witness : 0 < 1 ∧ withNext [(0 : Nat)] 1 1 = some [1] :=
  ⟨Nat.one_pos, ((claim_C5_with_next [(0 : Nat)] 1 1 Nat.one_pos).1).trans (by decide)⟩

/-- C6 counterexample: with_next on the empty window with order 0 does not
succeed with the empty window; the slice lower bound is out of range and
the Rust code panics, modelled as none. -/
theorem claim_C6_counterexample : withNext ([] : List Nat) 0 0 ≠ some [] := by
  decide

/-- C6 amended: for order 0, with_next always fails: the slice lower bound
length plus one exceeds the window length, so the operation panics instead
of producing the empty window; order-zero models are rejected at runtime
by with_next rather than supported. -/
theorem claim_C6_order_zero_fails {σ : Type} (current : List σ) (s : σ) :
    withNext current s 0 = none := by
  rw [withNext, if_neg (by omega), if_neg (by omega)]

/-- C7 counterexample: after a single add of the end-of-sequence sentinel
the total is 1, yet sample 0 returns none because the selected entry is the
sentinel, so the claimed equivalence between a none result and a zero total
fails. -/
theorem claim_C7_counterexample :
    ¬(((runAdds [(none : Option Nat)]).sample 0 = none) ↔
      (runAdds [(none : Option Nat)]).total_symbols = 0) := by
  intro h
  have hs : (runAdds [(none : Option Nat)]).sample 0 = none := by
    rw [Table.sample, zero_mul, Int.floor_zero, Int.toNat_zero]
    decide
  exact absurd (h.mp hs) (by decide)

/-- C7 amended: the scanning walk of sample runs off the end of the entry
list, finding no entry, exactly when the total-observations count is zero;
for x in the unit interval and a nonzero total the walk always finds a
matching entry because the target is below the total and the frequencies
sum to the total.  The flattened return value of sample can still be none
when the entry found is the end-of-sequence sentinel. -/
theorem claim_C7_walk_finds {σ : Type} [DecidableEq σ] (adds : List (Option σ))
    (x : ℚ) (hx0 : 0 ≤ x) (hx1 : x < 1) :
    (sampleLoopEntry (runAdds adds).entries
        (Int.toNat ⌊x * ((runAdds adds).total_symbols : ℚ)⌋) = none) ↔
      (runAdds adds).total_symbols = 0 := by
  constructor
  · intro hnone
    by_contra htot
    have h1 : Int.toNat ⌊x * ((runAdds adds).total_symbols : ℚ)⌋ <
        (runAdds adds).total_symbols := target_lt_total hx0 hx1 htot
    have h2 : (sampleLoopEntry (runAdds adds).entries
        (Int.toNat ⌊x * ((runAdds adds).total_symbols : ℚ)⌋)).isSome = true :=
      sampleLoopEntry_isSome (by rw [← (tableInv_runAdds adds).total_eq]; exact h1)
    rw [hnone] at h2
    simp at h2
  · intro htot
    rw [total_zero_entries_nil (tableInv_runAdds adds) htot]
    rfl

/-- Witness for C7 at one add of symbol 3 and x equal to 0. -/
theorem claim_C7_witness :
    (0 : ℚ) ≤ 0 ∧ (0 : ℚ) < 1 ∧
    ((sampleLoopEntry (runAdds [some (3 : Nat)]).entries
        (Int.toNat ⌊(0 : ℚ) * (((runAdds [some (3 : Nat)]).total_symbols :
          Nat) : ℚ)⌋) = none) ↔
      (runAdds [some (3 : Nat)]).total_symbols = 0) :=
  ⟨le_rfl, by norm_num, claim_C7_walk_finds [some 3] 0 le_rfl (by norm_num)⟩

/-- C8: prediction on a context never recorded during training returns
none, and after recording exactly one observation for such a context,
prediction on it returns that observation's symbol. -/
theorem claim_C8_predict {σ : Type} [DecidableEq σ] (order : Nat)
    (tr : List (List σ × Option σ)) (ctx : List σ) (s : σ)
    (h : ctx ∉ tr.map Prod.fst) :
    (runModel order tr).predict ctx = none ∧
    ((runModel order tr).add ctx (some s)).predict ctx = some s := by
  have hnone := lookupTable_runModel_notin order tr ctx h
  constructor
  · rw [Model.predict, hnone]
  · rw [Model.add_table_none _ _ _ hnone, Model.predict]
    rw [lookupTable_append_self _ hnone]
    rfl

/-- Witness for C8 on the empty training sequence, the empty context and
symbol 7. -/
theorem claim_C8_witness :
    (([] : List Nat) ∉ ([] : List (List Nat × Option Nat)).map Prod.fst) ∧
    (runModel 1 ([] : List (List Nat × Option Nat))).predict [] = none ∧
    ((runModel 1 ([] : List (List Nat × Option Nat))).add [] (some 7)).predict []
      = some 7 :=
  ⟨by decide, (claim_C8_predict 1 [] [] 7 (by decide)).1,
    (claim_C8_predict 1 [] [] 7 (by decide)).2⟩

/-- C9: after every sequence of add calls the index structure is consistent
with the entry list: the symbol-or-end at each position maps to that
position, and the index's domain is exactly the set of symbol-or-end values
in the entry list. -/
theorem claim_C9_index_consistent {σ : Type} [DecidableEq σ]
    (adds : List (Option σ)) :
    (∀ i, i < (runAdds adds).entries.length →
      lookupIdx (runAdds adds).entry_indices
        (getEntry (runAdds adds).entries i).symbol = some i) ∧
    (∀ s, (lookupIdx (runAdds adds).entry_indices s).isSome = true ↔
      s ∈ (runAdds adds).entries.map TableEntry.symbol) :=
  ⟨(tableInv_runAdds adds).idx_pos, (tableInv_runAdds adds).idx_dom⟩

/-- Witness for C9 at one add of symbol 3 and position 0. -/
theorem claim_C9_witness :
    0 < (runAdds [some (3 : Nat)]).entries.length ∧
    lookupIdx (runAdds [some (3 : Nat)]).entry_indices
      (getEntry (runAdds [some (3 : Nat)]).entries 0).symbol = some 0 :=
  ⟨by decide, (claim_C9_index_consistent [some 3]).1 0 (by decide)⟩

/-- C10: for every reachable table and value s, add s changes only the
entry for s: the recorded frequency of every other symbol-or-end value is
unchanged, no entry is removed, the set of values present stays the same or
grows by exactly s, and a new s is appended with frequency 1 at the end of
the list. -/
theorem claim_C10_add_frame {σ : Type} [DecidableEq σ] (adds : List (Option σ))
    (s : Option σ) :
    (∀ s', s' ≠ s → freqIn ((runAdds adds).add s).entries s' =
      freqIn (runAdds adds).entries s') ∧
    (∀ s', s' ∈ ((runAdds adds).add s).entries.map TableEntry.symbol ↔
      (s' ∈ (runAdds adds).entries.map TableEntry.symbol ∨ s' = s)) ∧
    (s ∉ (runAdds adds).entries.map TableEntry.symbol →
      ((runAdds adds).add s).entries =
        (runAdds adds).entries ++ [TableEntry.mk 1 s]) := by
  have ht := tableInv_runAdds adds
  cases hlook : lookupIdx (runAdds adds).entry_indices s with
  | none =>
    have hsnot : s ∉ (runAdds adds).entries.map TableEntry.symbol := by
      intro hmem
      have := (ht.idx_dom s).mpr hmem
      rw [hlook] at this
      simp at this
    rw [Table.add_none_eq _ _ hlook]
    refine ⟨?_, ?_, fun _ => rfl⟩
    · intro s' hs'
      exact freqIn_append_ne _ (fun hh => hs' (Eq.symm hh))
    · intro s'
      rw [List.map_append, List.map_cons, List.map_nil, List.mem_append,
        List.mem_singleton]
  | some i =>
    have hsome : (lookupIdx (runAdds adds).entry_indices s).isSome = true := by
      rw [hlook]
      rfl
    have hsmem := (ht.idx_dom s).mp hsome
    obtain ⟨hilen, hisym⟩ : i < (runAdds adds).entries.length ∧
        (getEntry (runAdds adds).entries i).symbol = s := by
      rcases exists_pos_of_mem_symbol hsmem with ⟨k, hk, hks⟩
      have hpk := ht.idx_pos k hk
      rw [hks, hlook] at hpk
      have hik : i = k := by simpa using hpk
      refine ⟨by omega, ?_⟩
      rw [hik]
      exact hks
    have hperm : (sortLoop (bumped (runAdds adds).entries i) i).1.Perm
        (bumped (runAdds adds).entries i) :=
      sortLoop_perm (bumped (runAdds adds).entries i) i
    have hnbumped : ((bumped (runAdds adds).entries i).map TableEntry.symbol).Nodup := by
      rw [map_symbol_bumped]
      exact ht.nodup
    rw [Table.add_some_eq _ _ i hlook]
    refine ⟨?_, ?_, ?_⟩
    · intro s' hs'
      have h1 : freqIn (bumped (runAdds adds).entries i) s' =
          freqIn (sortLoop (bumped (runAdds adds).entries i) i).1 s' :=
        freqIn_perm hperm.symm hnbumped s'
      rw [← h1]
      exact freqIn_set_ne (fun hh => hs' (hh.symm.trans hisym))
        (fun hh => hs' (hh.symm.trans hisym))
    · intro s'
      have hmemiff : s' ∈ ((sortLoop (bumped (runAdds adds).entries i) i).1.map
          TableEntry.symbol) ↔ s' ∈ (runAdds adds).entries.map TableEntry.symbol := by
        rw [(hperm.map TableEntry.symbol).mem_iff, map_symbol_bumped]
      constructor
      · intro hm
        exact Or.inl (hmemiff.mp hm)
      · rintro (hm | hm)
        · exact hmemiff.mpr hm
        · exact hmemiff.mpr (hm ▸ hsmem)
    · intro hnot
      exact absurd hsmem hnot

/-- Witness for C10: after one add of 0, adding 1 leaves the recorded
frequency of 0 unchanged. -/
theorem claim_C10_witness :
    (some (0 : Nat) ≠ some 1) ∧
    freqIn ((runAdds [some (0 : Nat)]).add (some 1)).entries (some 0) =
      freqIn (runAdds [some (0 : Nat)]).entries (some 0) :=
  ⟨by decide, (claim_C10_add_frame [some 0] (some 1)).1 (some 0) (by decide)⟩
